import Mathlib

/-!
Verification of the live structural synchronization engine of the
year-wrap viewer: the boundary scanner (`computePagesRanges`), the offset
resolver (`findPageIndexAtOffset`), the index stabilizer (`clampIndex`),
and the dual-trigger debounced scheduler, shallowly embedded from the
source. Document text is modelled as `List Char` (one entry per UTF-16
unit of the JS string; all texts involved are ASCII, where the two
notions of indexing coincide).
-/

/-- A record range, `\x7b start, end \x7d` in the source. `end` is a Lean
keyword, so the field is called `stop`. -/
structure Range where
  start : Nat
  stop : Nat
deriving Repr, DecidableEq

/-- Embeds `clampIndex(idx, len)`: `len <= 0` gives 0, otherwise
`Math.max(0, Math.min(len - 1, idx))`. -/
def clampIndex (idx : Int) (len : Int) : Int :=
  if len ≤ 0 then 0 else max 0 (min (len - 1) idx)

/-- `matchesAt pat s` holds when `pat` is a prefix of `s` (used to embed
JavaScript `String.prototype.indexOf`). -/
def matchesAt : List Char → List Char → Bool
  | [], _ => true
  | _ :: _, [] => false
  | p :: ps, c :: cs => p == c && matchesAt ps cs

/-- First index at which the pattern occurs as a contiguous substring,
embedding `text.indexOf(pat)`. -/
def indexOfSubstr (pat : List Char) : List Char → Option Nat
  | [] => if pat.isEmpty then some 0 else none
  | c :: rest =>
    if matchesAt pat (c :: rest) then some 0
    else (indexOfSubstr pat rest).map (fun n => n + 1)

/-- First index of a character in a character list. -/
def indexOfChar (c : Char) : List Char → Option Nat
  | [] => none
  | x :: rest =>
    if x == c then some 0
    else (indexOfChar c rest).map (fun n => n + 1)

/-- Embeds `text.indexOf(c, pos)`: first index `≥ pos` holding `c`,
reported as an absolute index. -/
def indexOfCharFrom (c : Char) (s : List Char) (pos : Nat) : Option Nat :=
  (indexOfChar c (s.drop pos)).map (fun n => pos + n)

/-- The quoted key the scanner searches for: `"pages"` with its quotes. -/
def pagesKey : List Char := '"' :: 'p' :: 'a' :: 'g' :: 'e' :: 's' :: ['"']

/-- The scanning loop of `computePagesRanges` (source lines 32-70),
one constructor step per loop iteration. State mirrors the source's
local variables: current absolute index `i`, `inString`, `escape`,
brace `depth`, pending record `start` (`-1` when none), and the
accumulated `ranges`. -/
def scanLoop : List Char → Nat → Bool → Bool → Nat → Int → List Range → List Range
  | [], _, _, _, _, _, ranges => ranges
  | ch :: rest, i, inString, escape, depth, start, ranges =>
    if inString then
      if escape then
        scanLoop rest (i + 1) inString false depth start ranges
      else if ch = '\\' then
        scanLoop rest (i + 1) inString true depth start ranges
      else if ch = '"' then
        scanLoop rest (i + 1) false escape depth start ranges
      else
        scanLoop rest (i + 1) inString escape depth start ranges
    else if ch = '"' then
      scanLoop rest (i + 1) true escape depth start ranges
    else if ch = '{' then
      scanLoop rest (i + 1) inString escape (depth + 1)
        (if depth = 0 then (i : Int) else start) ranges
    else if ch = '}' then
      if (if 0 < depth then depth - 1 else depth) = 0 ∧ 0 ≤ start then
        scanLoop rest (i + 1) inString escape (if 0 < depth then depth - 1 else depth) (-1)
          (ranges ++ [⟨start.toNat, i + 1⟩])
      else
        scanLoop rest (i + 1) inString escape (if 0 < depth then depth - 1 else depth) start ranges
    else if ch = ']' ∧ depth = 0 then
      ranges
    else
      scanLoop rest (i + 1) inString escape depth start ranges

/-- Embeds `computePagesRanges(text)`: find the `"pages"` key, then the
first `[` after it, then run the scanning loop from the character after
the bracket. The source's `typeof text !== 'string'` guard is subsumed
by the type of `text`. -/
def computePagesRanges (text : List Char) : List Range :=
  match indexOfSubstr pagesKey text with
  | none => []
  | some keyIdx =>
    match indexOfCharFrom '[' text keyIdx with
    | none => []
    | some arrStart =>
      scanLoop (text.drop (arrStart + 1)) (arrStart + 1) false false 0 (-1) []

/-- Embeds `findPageIndexAtOffset(ranges, offset)`: index of the first
range with `offset >= r.start && offset <= r.end`, else `null`
(modelled as `none`). -/
def findPageIndexAtOffset : List Range → Nat → Option Nat
  | [], _ => none
  | r :: rest, offset =>
    if r.start ≤ offset ∧ offset ≤ r.stop then some 0
    else (findPageIndexAtOffset rest offset).map (fun n => n + 1)

/-- `offset` lies within `[r.start, r.stop]`, both ends inclusive — the
containment test of the offset resolver. -/
def containsOff (r : Range) (offset : Nat) : Prop :=
  r.start ≤ offset ∧ offset ≤ r.stop

instance (r : Range) (offset : Nat) : Decidable (containsOff r offset) := by
  unfold containsOff; infer_instance

/-- String-body automaton: `strOk esc s = true` when, starting inside a
quoted string with escape flag `esc`, consuming `s` never reaches an
unescaped closing quote and does not end mid-escape (so a quote placed
right after `s` closes the string). This captures the spec's "no string
contains an unescaped quote" side condition. -/
def strOk : Bool → List Char → Bool
  | true, [] => false
  | false, [] => true
  | true, _ :: s => strOk false s
  | false, c :: s =>
    if c = '\\' then strOk true s
    else if c = '"' then false
    else strOk false s

mutual
/-- Grammar of text at brace depth ≥ 1 (inside a record): a chunk is a
plain character, a quoted string, or a nested `\x7b...\x7d` group.
`Chunks` is a list of chunks (mutual with `Chunk`). -/
inductive Chunk where
  | raw (c : Char) : Chunk
  | str (s : List Char) : Chunk
  | group (cs : Chunks) : Chunk
/-- A sequence of chunks. -/
inductive Chunks where
  | nil : Chunks
  | cons (hd : Chunk) (tl : Chunks) : Chunks
end

/-- Grammar of text at depth 0 inside the target array: filler character,
string element, or a top-level record. -/
inductive Item where
  | raw (c : Char) : Item
  | str (s : List Char) : Item
  | group (cs : Chunks) : Item

mutual
/-- Characters denoted by one chunk. -/
def renderChunk : Chunk → List Char
  | .raw c => [c]
  | .str s => '"' :: s ++ ['"']
  | .group cs => '{' :: renderChunks cs ++ ['}']
/-- Characters denoted by a chunk sequence. -/
def renderChunks : Chunks → List Char
  | .nil => []
  | .cons c cs => renderChunk c ++ renderChunks cs
end

/-- Characters denoted by one depth-0 item. -/
def renderItem : Item → List Char
  | .raw c => [c]
  | .str s => '"' :: s ++ ['"']
  | .group cs => '{' :: renderChunks cs ++ ['}']

/-- Characters denoted by the array body. -/
def renderItems : List Item → List Char
  | [] => []
  | it :: its => renderItem it ++ renderItems its

mutual
/-- A chunk is well formed when raw characters are structurally inert at
depth ≥ 1 (not a brace, not a quote; `]` is allowed — the scanner only
ends the array on `]` at depth 0) and string bodies contain no unescaped
quote. -/
def chunkOk : Chunk → Bool
  | .raw c => decide (c ≠ '{' ∧ c ≠ '}' ∧ c ≠ '"')
  | .str s => strOk false s
  | .group cs => chunksOk cs
/-- All chunks of a sequence are well formed. -/
def chunksOk : Chunks → Bool
  | .nil => true
  | .cons c cs => chunkOk c && chunksOk cs
end

/-- A depth-0 item is well formed when raw filler is structurally inert
at depth 0 (additionally not `]`, which would end the array). -/
def itemOk : Item → Bool
  | .raw c => decide (c ≠ '{' ∧ c ≠ '}' ∧ c ≠ '"' ∧ c ≠ ']')
  | .str s => strOk false s
  | .group cs => chunksOk cs

/-- All items of an array body are well formed. -/
def itemsOk : List Item → Bool
  | [] => true
  | it :: its => itemOk it && itemsOk its

/-- Number of top-level `\x7b...\x7d` groups among the items — the count
of depth-1 records the spec talks about. -/
def countGroups : List Item → Nat
  | [] => 0
  | .group _ :: its => countGroups its + 1
  | _ :: its => countGroups its

/-- The ranges the array body should produce when its rendering begins
at absolute index `i`: one range per group item, spanning exactly its
rendered characters. -/
def itemRanges : List Item → Nat → List Range
  | [], _ => []
  | .raw _ :: its, i => itemRanges its (i + 1)
  | .str s :: its, i => itemRanges its (i + s.length + 2)
  | .group cs :: its, i =>
    ⟨i, i + (renderChunks cs).length + 2⟩ ::
      itemRanges its (i + (renderChunks cs).length + 2)

/-- Some top-level chunk of the record is a string whose body contains a
brace character (the "unbalanced brace inside a quoted string" scenario). -/
def hasBraceStr : Chunks → Bool
  | .nil => false
  | .cons (.str s) cs => s.contains '{' || s.contains '}' || hasBraceStr cs
  | .cons _ cs => hasBraceStr cs

/-- Events feeding the dual-trigger scheduler. `textChanged` is the
editor `onChange` handler (which calls `scheduleParse` and
`scheduleCursorSync` with the new text), `cursorMoved` the
`onDidChangeCursorPosition` listener, `parseFire`/`cursorFire` the expiry
of the corresponding debounce timer, `navNext`/`navPrev` the manual
`goNext`/`goPrev` navigation, and `setFollow` the Follow-cursor checkbox. -/
inductive Event where
  | textChanged (t : List Char)
  | cursorMoved (offset : Nat)
  | parseFire
  | cursorFire
  | navNext
  | navPrev
  | setFollow (b : Bool)
deriving DecidableEq

/-- State of the scheduler core of `App` plus observation fields.
`parsedPagesLen` abstracts
`Array.isArray(parsedConfig?.data?.pages) ? parsedConfig.data.pages.length : 0`;
timers hold the text captured at scheduling time (`nextText` in the
source); `parseCount`/`lastParsedText` are history observations counting
fired parse cycles. The Monaco editor is assumed mounted. -/
structure SchedState where
  editorText : List Char
  cursorOffset : Nat
  parsedPagesLen : Nat
  activePageIndex : Int
  followCursor : Bool
  parseTimer : Option (List Char)
  cursorTimer : Option (List Char)
  parseCount : Nat
  lastParsedText : Option (List Char)
deriving DecidableEq

/-- One scheduler transition. `parseFn` abstracts `JSON.parse` followed
by extraction of the pages-array length (0 when parsing fails or the
field is missing); the theorems hold for every such function.
Faithful points from the source: `scheduleCursorSync` checks Follow Mode
at scheduling time only (its fired callback performs no follow check);
scheduling replaces any pending timer of the same kind; the cursor
callback reads the cursor position at fire time but scans the text
captured at scheduling time, and clamps against
`pagesLen || ranges.length` then `len || 1`. -/
def step (parseFn : List Char → Nat) : Event → SchedState → SchedState
  | .textChanged t, s =>
    if s.followCursor then
      { s with editorText := t, parseTimer := some t, cursorTimer := some t }
    else
      { s with editorText := t, parseTimer := some t }
  | .cursorMoved off, s =>
    if s.followCursor then
      { s with cursorOffset := off, cursorTimer := some s.editorText }
    else
      { s with cursorOffset := off }
  | .parseFire, s =>
    match s.parseTimer with
    | none => s
    | some t =>
      { s with parseTimer := none, parsedPagesLen := parseFn t,
               parseCount := s.parseCount + 1, lastParsedText := some t }
  | .cursorFire, s =>
    match s.cursorTimer with
    | none => s
    | some t =>
      match findPageIndexAtOffset (computePagesRanges t) s.cursorOffset with
      | none => { s with cursorTimer := none }
      | some idx =>
        { s with cursorTimer := none,
                 activePageIndex :=
                   clampIndex (idx : Int)
                     (if (if s.parsedPagesLen ≠ 0 then s.parsedPagesLen
                          else (computePagesRanges t).length) ≠ 0 then
                        ((if s.parsedPagesLen ≠ 0 then s.parsedPagesLen
                          else (computePagesRanges t).length : Nat) : Int)
                      else 1) }
  | .navNext, s =>
    { s with followCursor := false,
             activePageIndex :=
               clampIndex (s.activePageIndex + 1) (s.parsedPagesLen : Int) }
  | .navPrev, s =>
    { s with followCursor := false,
             activePageIndex :=
               clampIndex (s.activePageIndex - 1) (s.parsedPagesLen : Int) }
  | .setFollow b, s =>
    if b then
      { s with followCursor := b, cursorTimer := some s.editorText }
    else
      { s with followCursor := b }

/-- Run a sequence of scheduler events. -/
def steps (parseFn : List Char → Nat) : List Event → SchedState → SchedState
  | [], s => s
  | e :: es, s => steps parseFn es (step parseFn e s)

/-- Events that belong to the cursor-follow track: cursor-movement
notifications and cursor-timer expiries. -/
def cursorOnly : Event → Bool
  | .cursorMoved _ => true
  | .cursorFire => true
  | _ => false

/-- The end-to-end example text of the spec:
`{"data":{"pages":[{"id":"a"},{"id":"b"}]}}` (braces written with
escape codes). Its two records span `[18,28)` and `[29,39)`. -/
def exText : List Char :=
  "\x7b\"data\":\x7b\"pages\":[\x7b\"id\":\"a\"\x7d,\x7b\"id\":\"b\"\x7d]\x7d\x7d".data

/-- A scheduler state over `exText`: two parsed pages, previewing page 1,
Follow Mode on, no timer pending, cursor at offset 30 (inside the second
record). -/
def exState : SchedState :=
  { editorText := exText, cursorOffset := 30, parsedPagesLen := 2,
    activePageIndex := 1, followCursor := true, parseTimer := none,
    cursorTimer := none, parseCount := 0, lastParsedText := none }

/-- Balanced-array example `"pages":[{"a":"x"},{}]Z` used to witness the
balance property. -/
def text0 : List Char := "\"pages\":[\x7b\"a\":\"x\"\x7d,\x7b\x7d]Z".data

/-- The array body of `text0` as grammar items: the record
`{"a":"x"}`, a comma, and the empty record `{}`. -/
def its0 : List Item :=
  [Item.group (Chunks.cons (Chunk.str ['a']) (Chunks.cons (Chunk.raw ':')
     (Chunks.cons (Chunk.str ['x']) Chunks.nil))),
   Item.raw ',', Item.group Chunks.nil]

/-- String-immunity example `"pages":[{"v":"{un"}]`: one record whose
string field value contains an unbalanced opening brace. -/
def text1 : List Char := "\"pages\":[\x7b\"v\":\"\x7bun\"\x7d]".data

/-- The chunks of the single record of `text1`. -/
def cs1 : Chunks :=
  Chunks.cons (Chunk.str ['v']) (Chunks.cons (Chunk.raw ':')
    (Chunks.cons (Chunk.str ['{', 'u', 'n']) Chunks.nil))

/-- Minimal pages text `"pages":[{}]` with a single record `[9,11)`. -/
def text2 : List Char := "\"pages\":[\x7b\x7d]".data

/-- A scheduler state whose cursor timer is pending over `text2` while
the last parse recorded five pages (from older text): exercises the
clamp-bound fallback of the cursor trigger. -/
def st10 : SchedState :=
  { editorText := text2, cursorOffset := 10, parsedPagesLen := 5,
    activePageIndex := 0, followCursor := true, parseTimer := none,
    cursorTimer := some text2, parseCount := 0, lastParsedText := none }



/-- Well-formedness of one emitted range with respect to the scanned
text: positive extent, the range starts at an observed `\x7b` and ends
one past an observed `\x7d` (so a record is only emitted once its
closing brace has been seen), and it lies within the text. -/
def rangeProps (text : List Char) (r : Range) : Prop :=
  r.start < r.stop ∧ r.stop ≤ text.length ∧
  text[r.start]? = some '{' ∧ text[r.stop - 1]? = some '}'

/-- Inductive invariant of the scanning loop relating the absolute index
`i`, the pending `start` and the accumulated ranges to the text. -/
def scanInv (text : List Char) (i : Nat) (start : Int) (acc : List Range) : Prop :=
  (∀ r ∈ acc, rangeProps text r ∧ r.stop ≤ i) ∧
  List.Pairwise (fun r1 r2 => r1.stop ≤ r2.start) acc ∧
  (0 ≤ start → start.toNat < i ∧ text[start.toNat]? = some '{' ∧
    ∀ r ∈ acc, r.stop ≤ start.toNat)

/-- A burst of five text-change notifications. -/
def fiveTexts (t1 t2 t3 t4 t5 : List Char) : List Event :=
  [Event.textChanged t1, Event.textChanged t2, Event.textChanged t3,
   Event.textChanged t4, Event.textChanged t5]

/-! ## Helper lemmas -/

theorem matchesAt_iff (pat : List Char) (s : List Char) :
    matchesAt pat s = true ↔ ∃ q, s = pat ++ q := by
  induction pat generalizing s with
  | nil => simp [matchesAt]
  | cons p ps ih =>
    cases s with
    | nil => simp [matchesAt]
    | cons c cs =>
      simp only [matchesAt, Bool.and_eq_true, beq_iff_eq, ih, List.cons_append,
        List.cons.injEq]
      constructor
      · rintro ⟨rfl, q, rfl⟩; exact ⟨q, rfl, rfl⟩
      · rintro ⟨q, rfl, rfl⟩; exact ⟨rfl, q, rfl⟩

theorem indexOfSubstr_none_iff (pat l : List Char) (hp : pat ≠ []) :
    indexOfSubstr pat l = none ↔ ∀ p q, l ≠ p ++ pat ++ q := by
  induction l with
  | nil =>
    have h0 : indexOfSubstr pat [] = none := by
      rcases pat with _ | ⟨a, l⟩
      · exact absurd rfl hp
      · rfl
    rw [h0]
    constructor
    · intro _ p q hpq
      rcases pat with _ | ⟨a, l⟩
      · exact hp rfl
      · cases p <;> simp at hpq
    · intro _; rfl
  | cons c rest ih =>
    by_cases hm : matchesAt pat (c :: rest) = true
    · have h0 : indexOfSubstr pat (c :: rest) = some 0 := by
        rw [indexOfSubstr, if_pos hm]
      rw [h0]
      obtain ⟨q, hq⟩ := (matchesAt_iff pat (c :: rest)).mp hm
      constructor
      · intro h; cases h
      · intro h
        exact absurd hq (by simpa using h [] q)
    · have h0 : indexOfSubstr pat (c :: rest)
          = (indexOfSubstr pat rest).map (fun n => n + 1) := by
        rw [indexOfSubstr, if_neg hm]
      rw [h0, Option.map_eq_none', ih]
      constructor
      · intro h p q hpq
        cases p with
        | nil =>
          refine hm ((matchesAt_iff pat (c :: rest)).mpr ⟨q, ?_⟩)
          simpa using hpq
        | cons a p' =>
          simp only [List.cons_append] at hpq
          injection hpq with _ h2
          exact h p' q h2
      · intro h p q hpq
        exact h (c :: p) q (by simp [hpq])

theorem indexOfChar_none_iff (c : Char) (l : List Char) :
    indexOfChar c l = none ↔ c ∉ l := by
  induction l with
  | nil => simp [indexOfChar]
  | cons x rest ih =>
    by_cases hx : x == c
    · simp [indexOfChar, hx, beq_iff_eq.mp hx]
    · simp [indexOfChar, hx, Option.map_eq_none', ih,
        Ne.symm (by simpa using hx : x ≠ c)]

/-! ## Claim theorems: index stabilizer and offset resolver -/

/-- C6: for all integers `index` and `count`, `clampIndex index count`
equals 0 when `count ≤ 0` and lies in `[0, count-1]` when `count > 0`,
and `clampIndex` is idempotent. -/
theorem clampIndex_spec (i c : Int) :
    (c ≤ 0 → clampIndex i c = 0) ∧
    (0 < c → 0 ≤ clampIndex i c ∧ clampIndex i c ≤ c - 1) ∧
    clampIndex (clampIndex i c) c = clampIndex i c := by
  unfold clampIndex
  refine ⟨fun h => by rw [if_pos h], fun h => ?_, ?_⟩
  · rw [if_neg (by omega)]
    omega
  · by_cases h : c ≤ 0
    · simp [if_pos h]
    · simp only [if_neg h]
      omega

/-- Witness for C6 at `index = 5`, `count = 3`. -/
theorem clampIndex_spec_witness :
    0 ≤ clampIndex 5 3 ∧ clampIndex 5 3 ≤ 3 - 1 :=
  (clampIndex_spec 5 3).2.1 (by decide)

/-- C5: the offset resolver returns the first range index containing the
offset (both ends inclusive), and `none` exactly when no range contains
the offset. -/
theorem findPageIndexAtOffset_spec (ranges : List Range) (offset : Nat) :
    (∀ i, findPageIndexAtOffset ranges offset = some i →
        ∃ r, ranges[i]? = some r ∧ containsOff r offset ∧
          ∀ j, j < i → ∀ q, ranges[j]? = some q → ¬ containsOff q offset) ∧
    (findPageIndexAtOffset ranges offset = none ↔
        ∀ r ∈ ranges, ¬ containsOff r offset) := by
  induction ranges with
  | nil => simp [findPageIndexAtOffset]
  | cons r rest ih =>
    by_cases hc : r.start ≤ offset ∧ offset ≤ r.stop
    · constructor
      · intro i hi
        simp only [findPageIndexAtOffset, if_pos hc] at hi
        cases hi
        exact ⟨r, by simp, hc, fun j hj => by omega⟩
      · simp only [findPageIndexAtOffset, if_pos hc]
        constructor
        · intro h; cases h
        · intro h; exact absurd hc (h r (by simp))
    · constructor
      · intro i hi
        simp only [findPageIndexAtOffset, if_neg hc] at hi
        rcases Option.map_eq_some'.mp hi with ⟨n, hn, rfl⟩
        obtain ⟨q, hq, hcont, hmin⟩ := ih.1 n hn
        refine ⟨q, by simpa using hq, hcont, ?_⟩
        intro j hj p hp
        cases j with
        | zero =>
          simp only [List.getElem?_cons_zero, Option.some.injEq] at hp
          exact hp ▸ hc
        | succ j' =>
          exact hmin j' (by omega) p (by simpa using hp)
      · simp only [findPageIndexAtOffset, if_neg hc, Option.map_eq_none', ih.2,
          List.mem_cons]
        constructor
        · rintro h x (rfl | hx)
          · exact hc
          · exact h x hx
        · intro h x hx; exact h x (Or.inr hx)

/-- Witness for C5 on the spec's example range `(start = 5, end = 20)`:
offsets 5 and 20 resolve to index 0, offsets 4 and 21 to `none`, and the
`none` result coincides with no range containing offset 21. -/
theorem findPageIndexAtOffset_spec_witness :
    (findPageIndexAtOffset [⟨5, 20⟩] 21 = none ↔
        ∀ r ∈ [(⟨5, 20⟩ : Range)], ¬ containsOff r 21) ∧
    findPageIndexAtOffset [⟨5, 20⟩] 5 = some 0 ∧
    findPageIndexAtOffset [⟨5, 20⟩] 20 = some 0 ∧
    findPageIndexAtOffset [⟨5, 20⟩] 4 = none :=
  ⟨(findPageIndexAtOffset_spec [⟨5, 20⟩] 21).2, by decide, by decide, by decide⟩

/-- C9: when the quoted `pages` key does not occur in the text (stated
both via the embedded `indexOf` and via substring decompositions), or no
`[` occurs at or after its first occurrence, the scan returns the empty
range set; resolving against the empty range set always returns `none`. -/
theorem scan_missing_empty (text : List Char) :
    (indexOfSubstr pagesKey text = none ↔ ∀ p q, text ≠ p ++ pagesKey ++ q) ∧
    (indexOfSubstr pagesKey text = none → computePagesRanges text = []) ∧
    (∀ k, indexOfCharFrom '[' text k = none ↔ '[' ∉ text.drop k) ∧
    (∀ k, indexOfSubstr pagesKey text = some k →
      indexOfCharFrom '[' text k = none → computePagesRanges text = []) ∧
    (∀ offset, findPageIndexAtOffset [] offset = none) := by
  refine ⟨indexOfSubstr_none_iff _ _ (by simp [pagesKey]), ?_, ?_, ?_, ?_⟩
  · intro h; simp [computePagesRanges, h]
  · intro k
    simp [indexOfCharFrom, Option.map_eq_none', indexOfChar_none_iff]
  · intro k hk h
    simp [computePagesRanges, hk, h]
  · intro offset; simp [findPageIndexAtOffset]

/-- Witness for C9 on the text `hi`, which does not contain the key. -/
theorem scan_missing_empty_witness :
    computePagesRanges ['h', 'i'] = [] ∧
    ∀ p q, ['h', 'i'] ≠ p ++ pagesKey ++ q := by
  have h := scan_missing_empty ['h', 'i']
  have h1 : indexOfSubstr pagesKey ['h', 'i'] = none := by decide
  exact ⟨h.2.1 h1, h.1.mp h1⟩

/-! ## Single-step characterizations of the scanning loop -/

theorem scanLoop_esc (c : Char) (cs : List Char) (i depth : Nat) (start : Int)
    (acc : List Range) :
    scanLoop (c :: cs) i true true depth start acc
      = scanLoop cs (i + 1) true false depth start acc := by
  simp [scanLoop]

theorem scanLoop_backslash (cs : List Char) (i depth : Nat) (start : Int)
    (acc : List Range) :
    scanLoop ('\\' :: cs) i true false depth start acc
      = scanLoop cs (i + 1) true true depth start acc := by
  simp [scanLoop]

theorem scanLoop_closeQuote (cs : List Char) (i depth : Nat) (start : Int)
    (acc : List Range) :
    scanLoop ('"' :: cs) i true false depth start acc
      = scanLoop cs (i + 1) false false depth start acc := by
  simp [scanLoop]

theorem scanLoop_strOther (c : Char) (cs : List Char) (i depth : Nat) (start : Int)
    (acc : List Range) (hb : c ≠ '\\') (hq : c ≠ '"') :
    scanLoop (c :: cs) i true false depth start acc
      = scanLoop cs (i + 1) true false depth start acc := by
  simp [scanLoop, hb, hq]

theorem scanLoop_openQuote (cs : List Char) (i depth : Nat) (esc : Bool) (start : Int)
    (acc : List Range) :
    scanLoop ('"' :: cs) i false esc depth start acc
      = scanLoop cs (i + 1) true esc depth start acc := by
  simp [scanLoop]

theorem scanLoop_openBrace (cs : List Char) (i depth : Nat) (esc : Bool) (start : Int)
    (acc : List Range) :
    scanLoop ('{' :: cs) i false esc depth start acc
      = scanLoop cs (i + 1) false esc (depth + 1)
          (if depth = 0 then (i : Int) else start) acc := by
  simp [scanLoop]

theorem scanLoop_closeBrace_noEmit (cs : List Char) (i depth : Nat) (esc : Bool) (start : Int)
    (acc : List Range) (h : ¬((if 0 < depth then depth - 1 else depth) = 0 ∧ 0 ≤ start)) :
    scanLoop ('}' :: cs) i false esc depth start acc
      = scanLoop cs (i + 1) false esc (if 0 < depth then depth - 1 else depth)
          start acc := by
  simp [scanLoop, h]

theorem scanLoop_closeBrace_emit (cs : List Char) (i depth : Nat) (esc : Bool) (start : Int)
    (acc : List Range) (h : (if 0 < depth then depth - 1 else depth) = 0 ∧ 0 ≤ start) :
    scanLoop ('}' :: cs) i false esc depth start acc
      = scanLoop cs (i + 1) false esc (if 0 < depth then depth - 1 else depth)
          (-1) (acc ++ [⟨start.toNat, i + 1⟩]) := by
  simp [scanLoop, h.1, h.2]

theorem scanLoop_closeBracketDeep (cs : List Char) (i depth : Nat) (esc : Bool) (start : Int)
    (acc : List Range) (h : depth ≠ 0) :
    scanLoop (']' :: cs) i false esc depth start acc
      = scanLoop cs (i + 1) false esc depth start acc := by
  simp [scanLoop, h]

theorem scanLoop_closeBracketStop (cs : List Char) (i : Nat) (esc : Bool) (start : Int)
    (acc : List Range) :
    scanLoop (']' :: cs) i false esc 0 start acc = acc := by
  simp [scanLoop]

theorem scanLoop_other (c : Char) (cs : List Char) (i depth : Nat) (esc : Bool) (start : Int)
    (acc : List Range) (h1 : c ≠ '"') (h2 : c ≠ '{') (h3 : c ≠ '}')
    (h4 : ¬(c = ']' ∧ depth = 0)) :
    scanLoop (c :: cs) i false esc depth start acc
      = scanLoop cs (i + 1) false esc depth start acc := by
  simp [scanLoop, h1, h2, h3, h4]

/-- Consuming a well-formed string body and its closing quote returns the
scanner to non-string state, leaving depth, pending start and emitted
ranges untouched. -/
theorem scanLoop_strSkip (s : List Char) : ∀ (esc : Bool) (rest : List Char) (i depth : Nat)
    (start : Int) (acc : List Range), strOk esc s = true →
    scanLoop (s ++ '"' :: rest) i true esc depth start acc
      = scanLoop rest (i + s.length + 1) false false depth start acc := by
  induction s with
  | nil =>
    intro esc rest i depth start acc h
    cases esc with
    | false => simpa using scanLoop_closeQuote rest i depth start acc
    | true => simp [strOk] at h
  | cons c s ih =>
    intro esc rest i depth start acc h
    have harith : i + (c :: s).length + 1 = i + 1 + s.length + 1 := by
      simp only [List.length_cons]
      omega
    cases esc with
    | true =>
      rw [List.cons_append, scanLoop_esc,
        ih false _ _ _ _ _ (by simpa [strOk] using h), harith]
    | false =>
      by_cases hb : c = '\\'
      · subst hb
        rw [List.cons_append, scanLoop_backslash,
          ih true _ _ _ _ _ (by simpa [strOk] using h), harith]
      · have hq : c ≠ '"' := by
          intro hq
          subst hq
          simp [strOk] at h
        rw [List.cons_append, scanLoop_strOther c _ _ _ _ _ hb hq,
          ih false _ _ _ _ _ (by simpa [strOk, hb, hq] using h), harith]

/-- C4: a quote preceded by an odd number of consecutive backslashes does
not terminate the string: the scanner consumes the backslash run and the
quote and is still inside the string, with depth, pending record start
and emitted ranges unchanged — so such an escaped quote never closes a
record range prematurely. -/
theorem scanLoop_escapedQuote (n : Nat) (rest : List Char) (i depth : Nat) (start : Int)
    (acc : List Range) (h : n % 2 = 1) :
    scanLoop (List.replicate n '\\' ++ '"' :: rest) i true false depth start acc
      = scanLoop rest (i + n + 1) true false depth start acc := by
  obtain ⟨k, rfl⟩ : ∃ k, n = 2 * k + 1 := ⟨n / 2, by omega⟩
  clear h
  induction k generalizing i with
  | zero =>
    rw [show List.replicate (2 * 0 + 1) '\\' = ['\\'] from rfl]
    rw [List.cons_append, List.nil_append, scanLoop_backslash, scanLoop_esc]
  | succ k ih =>
    rw [show List.replicate (2 * (k + 1) + 1) '\\'
        = '\\' :: '\\' :: List.replicate (2 * k + 1) '\\' from by
      rw [show 2 * (k + 1) + 1 = (2 * k + 1) + 1 + 1 from by ring]
      rw [List.replicate_succ, List.replicate_succ]]
    rw [show i + (2 * (k + 1) + 1) + 1 = i + 1 + 1 + (2 * k + 1) + 1 from by ring]
    rw [List.cons_append, List.cons_append, scanLoop_backslash, scanLoop_esc, ih]

/-- Witness for C4 at a single backslash before the quote. -/
theorem scanLoop_escapedQuote_witness :
    scanLoop (List.replicate 1 '\\' ++ '"' :: ['b']) 0 true false 1 0 []
      = scanLoop ['b'] (0 + 1 + 1) true false 1 0 [] :=
  scanLoop_escapedQuote 1 ['b'] 0 1 0 [] (by decide)

theorem scanLoop_idx_congr (cs : List Char) (i j : Nat) (b1 b2 : Bool) (depth : Nat)
    (start : Int) (acc : List Range) (h : i = j) :
    scanLoop cs i b1 b2 depth start acc = scanLoop cs j b1 b2 depth start acc := by
  rw [h]

/-- Consuming the rendering of well-formed chunks at depth ≥ 1 leaves the
scanner state unchanged apart from advancing the index: no range is
emitted and the pending start survives. Proved by fuel over `sizeOf`. -/
theorem scanLoop_chunksSkip_fuel (n : Nat) : ∀ (cs : Chunks), sizeOf cs ≤ n →
    ∀ (rest : List Char) (i depth : Nat) (start : Int) (acc : List Range),
    chunksOk cs = true → 1 ≤ depth →
    scanLoop (renderChunks cs ++ rest) i false false depth start acc
      = scanLoop rest (i + (renderChunks cs).length) false false depth start acc := by
  induction n with
  | zero =>
    intro cs hs
    exfalso
    cases cs with
    | nil => simp at hs
    | cons c cs' => simp at hs
  | succ n ih =>
    intro cs hs rest i depth start acc hok hd
    cases cs with
    | nil => simp [renderChunks]
    | cons c cs' =>
      simp only [chunksOk, Bool.and_eq_true] at hok
      simp only [Chunks.cons.sizeOf_spec] at hs
      cases c with
      | raw ch =>
        have hprop : ch ≠ '{' ∧ ch ≠ '}' ∧ ch ≠ '"' := by
          simpa [chunkOk] using hok.1
        simp only [renderChunks, renderChunk, List.cons_append, List.nil_append,
          List.append_assoc, List.length_cons, List.length_append]
        rw [scanLoop_other ch _ _ _ _ _ _ hprop.2.2 hprop.1 hprop.2.1
          (by rintro ⟨_, h0⟩; omega)]
        rw [ih cs' (by omega) _ _ _ _ _ hok.2 hd]
        exact scanLoop_idx_congr _ _ _ _ _ _ _ _ (by omega)
      | str s =>
        simp only [renderChunks, renderChunk, List.cons_append, List.nil_append,
          List.append_assoc, List.singleton_append, List.length_cons,
          List.length_append, List.length_nil]
        rw [scanLoop_openQuote]
        rw [scanLoop_strSkip s false _ _ _ _ _ (by simpa [chunkOk] using hok.1)]
        rw [ih cs' (by omega) _ _ _ _ _ hok.2 hd]
        exact scanLoop_idx_congr _ _ _ _ _ _ _ _ (by omega)
      | group inner =>
        have hsi : sizeOf inner ≤ n := by
          simp only [Chunk.group.sizeOf_spec] at hs
          omega
        simp only [renderChunks, renderChunk, List.cons_append, List.nil_append,
          List.append_assoc, List.singleton_append, List.length_cons,
          List.length_append, List.length_nil]
        rw [scanLoop_openBrace, if_neg (show ¬depth = 0 by omega)]
        rw [ih inner hsi _ _ _ _ _ (by simpa [chunkOk] using hok.1) (by omega)]
        rw [scanLoop_closeBrace_noEmit _ _ _ _ _ _ (by
          rintro ⟨h0, _⟩
          rw [if_pos (by omega : 0 < depth + 1)] at h0
          omega)]
        rw [if_pos (by omega : 0 < depth + 1), Nat.add_sub_cancel]
        rw [ih cs' (by omega) _ _ _ _ _ hok.2 hd]
        exact scanLoop_idx_congr _ _ _ _ _ _ _ _ (by omega)

theorem scanLoop_chunksSkip (cs : Chunks) (rest : List Char) (i depth : Nat)
    (start : Int) (acc : List Range) (hok : chunksOk cs = true) (hd : 1 ≤ depth) :
    scanLoop (renderChunks cs ++ rest) i false false depth start acc
      = scanLoop rest (i + (renderChunks cs).length) false false depth start acc :=
  scanLoop_chunksSkip_fuel (sizeOf cs) cs le_rfl rest i depth start acc hok hd

/-- Scanning the rendering of a well-formed array body followed by the
terminating `]` appends exactly the ranges predicted by `itemRanges` and
stops at that `]` regardless of what follows. -/
theorem scanLoop_items (its : List Item) : ∀ (rest : List Char) (i : Nat) (acc : List Range),
    itemsOk its = true →
    scanLoop (renderItems its ++ ']' :: rest) i false false 0 (-1) acc
      = acc ++ itemRanges its i := by
  induction its with
  | nil =>
    intro rest i acc _
    simp only [renderItems, List.nil_append, itemRanges, List.append_nil]
    exact scanLoop_closeBracketStop rest i false (-1) acc
  | cons it its ih =>
    intro rest i acc hok
    simp only [itemsOk, Bool.and_eq_true] at hok
    cases it with
    | raw ch =>
      have hprop : ch ≠ '{' ∧ ch ≠ '}' ∧ ch ≠ '"' ∧ ch ≠ ']' := by
        simpa [itemOk] using hok.1
      simp only [renderItems, renderItem, List.cons_append, List.nil_append,
        List.append_assoc, itemRanges]
      rw [scanLoop_other ch _ _ _ _ _ _ hprop.2.2.1 hprop.1 hprop.2.1
        (by rintro ⟨hc, _⟩; exact hprop.2.2.2 hc)]
      exact ih _ _ _ hok.2
    | str s =>
      simp only [renderItems, renderItem, List.cons_append, List.nil_append,
        List.append_assoc, List.singleton_append, itemRanges]
      rw [scanLoop_openQuote]
      rw [scanLoop_strSkip s false _ _ _ _ _ (by simpa [itemOk] using hok.1)]
      rw [ih _ _ _ hok.2]
      exact congrArg (fun z => acc ++ itemRanges its z) (by omega)
    | group cs =>
      simp only [renderItems, renderItem, List.cons_append, List.nil_append,
        List.append_assoc, List.singleton_append, itemRanges]
      rw [scanLoop_openBrace, if_pos rfl]
      rw [scanLoop_chunksSkip cs _ _ _ _ _ (by simpa [itemOk] using hok.1) (by omega)]
      rw [scanLoop_closeBrace_emit _ _ _ _ _ _ (by
        constructor
        · rw [if_pos (by omega : 0 < 0 + 1)]
        · exact Int.natCast_nonneg i)]
      rw [if_pos (by omega : 0 < 0 + 1), Nat.add_sub_cancel]
      rw [ih _ _ _ hok.2]
      rw [Int.toNat_natCast]
      rw [List.append_assoc]
      rw [List.singleton_append]
      exact congrArg (fun z => acc ++ (⟨i, z⟩ : Range) :: itemRanges its z) (by omega)

theorem itemRanges_length (its : List Item) : ∀ i, (itemRanges its i).length = countGroups its := by
  induction its with
  | nil => intro i; rfl
  | cons it its ih =>
    intro i
    cases it with
    | raw c => simpa [itemRanges, countGroups] using ih _
    | str s => simpa [itemRanges, countGroups] using ih _
    | group cs => simpa [itemRanges, countGroups] using ih _

/-- C1 (balance property): for a text whose `pages` array body renders a
well-formed item sequence (balanced braces, no unescaped quote inside a
string) terminated by the first depth-0 `]`, the scan returns one range
per top-level group, at exactly the predicted positions and in discovery
order, regardless of what follows the terminating bracket. -/
theorem scan_balanced_count (text : List Char) (k a : Nat) (its : List Item)
    (rest : List Char)
    (h1 : indexOfSubstr pagesKey text = some k)
    (h2 : indexOfCharFrom '[' text k = some a)
    (h3 : text.drop (a + 1) = renderItems its ++ ']' :: rest)
    (h4 : itemsOk its = true) :
    computePagesRanges text = itemRanges its (a + 1) ∧
    (computePagesRanges text).length = countGroups its := by
  have hmain : computePagesRanges text = itemRanges its (a + 1) := by
    simp only [computePagesRanges, h1, h2, h3]
    rw [scanLoop_items its rest (a + 1) [] h4]
    simp
  exact ⟨hmain, by rw [hmain, itemRanges_length]⟩

/-- Witness for C1 on `text0` = `"pages":[{"a":"x"},{}]Z` with item list
`its0`: two groups, two ranges. -/
theorem scan_balanced_count_witness :
    computePagesRanges text0 = [⟨9, 18⟩, ⟨19, 21⟩] ∧
    (computePagesRanges text0).length = 2 := by
  have h := scan_balanced_count text0 0 8 its0 ['Z'] (by decide) (by decide)
    (by decide) (by decide)
  exact ⟨h.1.trans (by decide), h.2.trans (by decide)⟩

/-- C3 (string immunity): brace characters inside a quoted string never
affect the scanner's depth: a text whose array body is a single
well-formed record — in particular one containing a string chunk whose
body holds an unbalanced brace — yields exactly one correctly bounded
range spanning that record. -/
theorem scan_stringImmunity (text : List Char) (k a : Nat) (cs : Chunks)
    (rest : List Char)
    (h1 : indexOfSubstr pagesKey text = some k)
    (h2 : indexOfCharFrom '[' text k = some a)
    (h3 : text.drop (a + 1) = renderItem (Item.group cs) ++ ']' :: rest)
    (h4 : chunksOk cs = true)
    (_h5 : hasBraceStr cs = true) :
    computePagesRanges text = [⟨a + 1, a + (renderChunks cs).length + 3⟩] := by
  have h3' : text.drop (a + 1) = renderItems [Item.group cs] ++ ']' :: rest := by
    rw [h3]
    simp [renderItems]
  have hmain : computePagesRanges text = itemRanges [Item.group cs] (a + 1) := by
    simp only [computePagesRanges, h1, h2, h3']
    rw [scanLoop_items [Item.group cs] rest (a + 1) [] (by simpa [itemsOk, itemOk] using h4)]
    simp
  rw [hmain]
  simp only [itemRanges]
  exact congrArg (fun z => [(⟨a + 1, z⟩ : Range)]) (by omega)

/-- Witness for C3 on `text1` = `"pages":[{"v":"{un"}]`, whose single
record's string value `{un` contains an unbalanced opening brace. -/
theorem scan_stringImmunity_witness :
    computePagesRanges text1 = [⟨9, 20⟩] := by
  have h := scan_stringImmunity text1 0 8 cs1 [] (by decide) (by decide)
    (by decide) (by decide) (by decide)
  exact h.trans (by decide)

theorem drop_eq_cons_parts {α : Type} (l : List α) : ∀ (i : Nat) (c : α) (rest : List α),
    l.drop i = c :: rest → l[i]? = some c ∧ l.drop (i + 1) = rest := by
  induction l with
  | nil =>
    intro i c rest h
    rw [List.drop_nil] at h
    cases h
  | cons x xs ih =>
    intro i c rest h
    cases i with
    | zero =>
      rw [List.drop_zero] at h
      injection h with h1 h2
      subst h1
      exact ⟨by simp, by simpa using h2⟩
    | succ i' =>
      have h' : xs.drop i' = c :: rest := by simpa using h
      obtain ⟨g1, g2⟩ := ih i' c rest h'
      exact ⟨by simpa using g1, by simpa [List.drop_succ_cons] using g2⟩

theorem scanInv_mono (text : List Char) (i : Nat) (start : Int) (acc : List Range)
    (h : scanInv text i start acc) : scanInv text (i + 1) start acc := by
  obtain ⟨p1, p2, p3⟩ := h
  refine ⟨fun r hr => ⟨(p1 r hr).1, by have := (p1 r hr).2; omega⟩, p2, fun hs => ?_⟩
  obtain ⟨q1, q2, q3⟩ := p3 hs
  exact ⟨by omega, q2, q3⟩

/-- The scanning loop preserves the range invariants: every range it
returns is well formed for the text and the output is ordered and
non-overlapping. -/
theorem scanLoop_inv (text : List Char) : ∀ (cs : List Char) (i : Nat)
    (inString escape : Bool) (depth : Nat) (start : Int) (acc : List Range),
    text.drop i = cs → scanInv text i start acc →
    (∀ r ∈ scanLoop cs i inString escape depth start acc, rangeProps text r) ∧
    List.Pairwise (fun r1 r2 => r1.stop ≤ r2.start)
      (scanLoop cs i inString escape depth start acc) := by
  intro cs
  induction cs with
  | nil =>
    intro i inString escape depth start acc hdrop hinv
    simp only [scanLoop]
    exact ⟨fun r hr => (hinv.1 r hr).1, hinv.2.1⟩
  | cons ch rest ih =>
    intro i inString escape depth start acc hdrop hinv
    obtain ⟨hget, hdrop'⟩ := drop_eq_cons_parts text i ch rest hdrop
    have hmono := scanInv_mono text i start acc hinv
    cases inString with
    | true =>
      cases escape with
      | true =>
        rw [scanLoop_esc]
        exact ih _ _ _ _ _ _ hdrop' hmono
      | false =>
        by_cases hb : ch = '\\'
        · subst hb
          rw [scanLoop_backslash]
          exact ih _ _ _ _ _ _ hdrop' hmono
        · by_cases hq : ch = '"'
          · subst hq
            rw [scanLoop_closeQuote]
            exact ih _ _ _ _ _ _ hdrop' hmono
          · rw [scanLoop_strOther ch _ _ _ _ _ hb hq]
            exact ih _ _ _ _ _ _ hdrop' hmono
    | false =>
      by_cases hq : ch = '"'
      · subst hq
        rw [scanLoop_openQuote]
        exact ih _ _ _ _ _ _ hdrop' hmono
      · by_cases hob : ch = '{'
        · subst hob
          rw [scanLoop_openBrace]
          by_cases hd0 : depth = 0
          · rw [if_pos hd0]
            refine ih _ _ _ _ _ _ hdrop' ⟨hmono.1, hmono.2.1, fun _ => ?_⟩
            refine ⟨by simp, by simpa using hget, ?_⟩
            intro r hr
            have := (hinv.1 r hr).2
            simp only [Int.toNat_natCast]
            omega
          · rw [if_neg hd0]
            exact ih _ _ _ _ _ _ hdrop' hmono
        · by_cases hcb : ch = '}'
          · subst hcb
            by_cases hemit : (if 0 < depth then depth - 1 else depth) = 0 ∧ 0 ≤ start
            · rw [scanLoop_closeBrace_emit _ _ _ _ _ _ hemit]
              obtain ⟨hstart, hsget, hsacc⟩ := hinv.2.2 hemit.2
              have hlen : i < text.length := by
                by_contra hc
                push_neg at hc
                rw [List.getElem?_eq_none hc] at hget
                cases hget
              refine ih _ _ _ _ _ _ hdrop' ⟨?_, ?_, ?_⟩
              · intro r hr
                rcases List.mem_append.mp hr with hr | hr
                · exact ⟨(hinv.1 r hr).1, by have := (hinv.1 r hr).2; omega⟩
                · rw [List.mem_singleton] at hr
                  subst hr
                  refine ⟨⟨?_, ?_, ?_, ?_⟩, le_refl _⟩
                  · show start.toNat < i + 1
                    omega
                  · show i + 1 ≤ text.length
                    omega
                  · show text[start.toNat]? = some '{'
                    exact hsget
                  · show text[i + 1 - 1]? = some '}'
                    simpa using hget
              · rw [List.pairwise_append]
                refine ⟨hinv.2.1, List.pairwise_singleton _ _, ?_⟩
                intro r hr r' hr'
                rw [List.mem_singleton] at hr'
                subst hr'
                exact hsacc r hr
              · intro hneg
                exact absurd hneg (by decide)
            · rw [scanLoop_closeBrace_noEmit _ _ _ _ _ _ hemit]
              exact ih _ _ _ _ _ _ hdrop' hmono
          · by_cases hrb : ch = ']'
            · subst hrb
              by_cases hd0 : depth = 0
              · subst hd0
                rw [scanLoop_closeBracketStop]
                exact ⟨fun r hr => (hinv.1 r hr).1, hinv.2.1⟩
              · rw [scanLoop_closeBracketDeep _ _ _ _ _ _ hd0]
                exact ih _ _ _ _ _ _ hdrop' hmono
            · rw [scanLoop_other ch _ _ _ _ _ _ hq hob hcb
                (by rintro ⟨hc, _⟩; exact hrb hc)]
              exact ih _ _ _ _ _ _ hdrop' hmono

/-- C2: for every input text, every range the scan emits has
`start < end`, begins at an observed `\x7b` and ends one position past an
observed `\x7d` within the text (no incomplete trailing record is ever
emitted), and the range set is ordered left to right without overlaps
(each range ends at or before the next one starts). -/
theorem scan_wellFormed (text : List Char) :
    (∀ r ∈ computePagesRanges text,
      r.start < r.stop ∧ r.stop ≤ text.length ∧
      text[r.start]? = some '{' ∧ text[r.stop - 1]? = some '}') ∧
    List.Pairwise (fun r1 r2 => r1.stop ≤ r2.start) (computePagesRanges text) := by
  cases hk : indexOfSubstr pagesKey text with
  | none =>
    simp [computePagesRanges, hk]
  | some k =>
    cases ha : indexOfCharFrom '[' text k with
    | none =>
      simp [computePagesRanges, hk, ha]
    | some a =>
      have hrun : computePagesRanges text
          = scanLoop (text.drop (a + 1)) (a + 1) false false 0 (-1) [] := by
        simp [computePagesRanges, hk, ha]
      rw [hrun]
      have h := scanLoop_inv text (text.drop (a + 1)) (a + 1) false false 0 (-1) [] rfl
        ⟨by simp, by simp, fun hneg => absurd hneg (by decide)⟩
      exact ⟨fun r hr => (h.1 r hr : rangeProps text r), h.2⟩

/-! ## Claim theorems: dual-trigger scheduler -/

/-- C8 (debounce collapse): each trigger kind owns a single timer slot —
a new event of the same kind replaces the pending handle — so five
text-change notifications leave exactly one parse timer pending, holding
the text of the last call; the single subsequent expiry performs exactly
one parse cycle, on that text, and a further expiry does nothing. -/
theorem debounceCollapse (parseFn : List Char → Nat) (s : SchedState)
    (t1 t2 t3 t4 t5 : List Char) :
    (steps parseFn (fiveTexts t1 t2 t3 t4 t5) s).parseCount = s.parseCount ∧
    (steps parseFn (fiveTexts t1 t2 t3 t4 t5) s).parseTimer = some t5 ∧
    (step parseFn Event.parseFire (steps parseFn (fiveTexts t1 t2 t3 t4 t5) s)).parseCount
      = s.parseCount + 1 ∧
    (step parseFn Event.parseFire (steps parseFn (fiveTexts t1 t2 t3 t4 t5) s)).lastParsedText
      = some t5 ∧
    (step parseFn Event.parseFire (steps parseFn (fiveTexts t1 t2 t3 t4 t5) s)).parsedPagesLen
      = parseFn t5 ∧
    (step parseFn Event.parseFire (steps parseFn (fiveTexts t1 t2 t3 t4 t5) s)).parseTimer
      = none ∧
    step parseFn Event.parseFire
        (step parseFn Event.parseFire (steps parseFn (fiveTexts t1 t2 t3 t4 t5) s))
      = step parseFn Event.parseFire (steps parseFn (fiveTexts t1 t2 t3 t4 t5) s) := by
  cases hf : s.followCursor <;>
    simp [fiveTexts, steps, step, hf]

/-- Witness for C8: a concrete burst of five texts over `exState`. -/
theorem debounceCollapse_witness :
    (steps (fun t => t.length) (fiveTexts ['a'] ['b'] ['c'] ['d'] ['e']) exState).parseTimer
      = some ['e'] :=
  (debounceCollapse (fun t => t.length) exState ['a'] ['b'] ['c'] ['d'] ['e']).2.1

theorem cursorOnly_preserve (parseFn : List Char → Nat) : ∀ (events : List Event)
    (s : SchedState), s.followCursor = false → s.cursorTimer = none →
    (∀ e ∈ events, cursorOnly e = true) →
    (steps parseFn events s).activePageIndex = s.activePageIndex ∧
    (steps parseFn events s).followCursor = false ∧
    (steps parseFn events s).cursorTimer = none := by
  intro events
  induction events with
  | nil =>
    intro s h1 h2 _
    exact ⟨rfl, h1, h2⟩
  | cons e es ih =>
    intro s h1 h2 hev
    have he : cursorOnly e = true := hev e (List.mem_cons_self e es)
    have hes : ∀ x ∈ es, cursorOnly x = true :=
      fun x hx => hev x (List.mem_cons_of_mem e hx)
    cases e with
    | cursorMoved off =>
      have hstep : step parseFn (Event.cursorMoved off) s
          = { s with cursorOffset := off } := by
        simp [step, h1]
      rw [steps, hstep]
      exact ih _ h1 h2 hes
    | cursorFire =>
      have hstep : step parseFn Event.cursorFire s = s := by
        simp [step, h2]
      rw [steps, hstep]
      exact ih s h1 h2 hes
    | textChanged t => simp [cursorOnly] at he
    | parseFire => simp [cursorOnly] at he
    | navNext => simp [cursorOnly] at he
    | navPrev => simp [cursorOnly] at he
    | setFollow b => simp [cursorOnly] at he

/-- C7 as amended: manual navigation turns Follow Mode off, and when no
cursor timer is pending at navigation time, any subsequent sequence of
cursor-movement notifications and cursor-timer expiries (before
`setFollowMode(true)`) leaves the Active Index unchanged — cursor
notifications schedule nothing while Follow Mode is off. -/
theorem followSuppression (parseFn : List Char → Nat) (s0 : SchedState)
    (events : List Event) (htimer : s0.cursorTimer = none)
    (hev : ∀ e ∈ events, cursorOnly e = true) :
    (step parseFn Event.navNext s0).followCursor = false ∧
    (steps parseFn events (step parseFn Event.navNext s0)).activePageIndex
      = (step parseFn Event.navNext s0).activePageIndex ∧
    (steps parseFn events (step parseFn Event.navNext s0)).followCursor = false := by
  have h1 : (step parseFn Event.navNext s0).followCursor = false := by
    simp [step]
  have h2 : (step parseFn Event.navNext s0).cursorTimer = none := by
    simpa [step] using htimer
  have h := cursorOnly_preserve parseFn events _ h1 h2 hev
  exact ⟨h1, h.1, h.2.1⟩

/-- Witness for the amended C7 over `exState`. -/
theorem followSuppression_witness :
    (step (fun _ => 2) Event.navNext exState).followCursor = false ∧
    (steps (fun _ => 2) [Event.cursorMoved 7, Event.cursorFire]
        (step (fun _ => 2) Event.navNext exState)).activePageIndex
      = (step (fun _ => 2) Event.navNext exState).activePageIndex ∧
    (steps (fun _ => 2) [Event.cursorMoved 7, Event.cursorFire]
        (step (fun _ => 2) Event.navNext exState)).followCursor = false :=
  followSuppression (fun _ => 2) exState [Event.cursorMoved 7, Event.cursorFire]
    rfl (by decide)

/-- Counterexample to C7 as stated: over `exText`, a cursor notification
is received while Follow Mode is on (scheduling a cursor timer), the
user then navigates back (Follow Mode becomes false, Active Index 0),
and the already-pending timer then fires: the fired callback performs no
Follow Mode check, so the Active Index changes to 1 even though Follow
Mode is false at the moment the debounce timer fires. -/
theorem followSuppression_cex :
    (steps (fun _ => 2) [Event.cursorMoved 30, Event.navPrev] exState).followCursor
      = false ∧
    (steps (fun _ => 2) [Event.cursorMoved 30, Event.navPrev] exState).cursorTimer
      = some exText ∧
    (steps (fun _ => 2) [Event.cursorMoved 30, Event.navPrev] exState).activePageIndex
      = 0 ∧
    (step (fun _ => 2) Event.cursorFire
        (steps (fun _ => 2) [Event.cursorMoved 30, Event.navPrev] exState)).activePageIndex
      = 1 := by
  refine ⟨by decide, by decide, by decide, by decide⟩

/-- C10: when the cursor timer fires over captured text `t` and the
resolver yields `idx`, the published Active Index is `clampIndex idx n`
where `n` is the page count of the most recently parsed snapshot when
nonzero, otherwise the number of freshly scanned ranges, otherwise 1 —
the parsed count belongs to the state, not to `t`, so the clamp bound
can stem from a parse of older text. -/
theorem cursorFirePublish (parseFn : List Char → Nat) (s : SchedState) (t : List Char)
    (idx : Nat) (ht : s.cursorTimer = some t)
    (hidx : findPageIndexAtOffset (computePagesRanges t) s.cursorOffset = some idx) :
    (step parseFn Event.cursorFire s).activePageIndex
      = clampIndex (idx : Int)
          (if (if s.parsedPagesLen ≠ 0 then s.parsedPagesLen
               else (computePagesRanges t).length) ≠ 0 then
             ((if s.parsedPagesLen ≠ 0 then s.parsedPagesLen
               else (computePagesRanges t).length : Nat) : Int)
           else 1) := by
  simp [step, ht, hidx]

/-- Witness for C10 on `st10`: the fresh scan of `text2` has one range,
but the clamp bound is the stale parsed page count 5. -/
theorem cursorFirePublish_witness :
    (step (fun _ => 0) Event.cursorFire st10).activePageIndex = 0 := by
  have h := cursorFirePublish (fun _ => 0) st10 text2 0 rfl (by decide)
  rw [h]
  decide
